import Mathlib

/-!
Verification of the KRN (Kopexa Resource Name) library.

The Go source is embedded shallowly: strings are modelled as lists of
characters, and every Go function used by the claims is translated into a
computable Lean definition with the same control flow.  Byte lengths agree
with character counts on all code paths that matter, because every accepted
alphabet is pure ASCII and every non-ASCII character is rejected or replaced
before a length is inspected.
-/

set_option maxRecDepth 8000

namespace Krn

/-- Strings are modelled as lists of characters. -/
abbrev Str := List Char

instance {ε α : Type} [DecidableEq ε] [DecidableEq α] : DecidableEq (Except ε α) := fun x y =>
  match x, y with
  | .ok a, .ok b =>
    if h : a = b then isTrue (by rw [h]) else isFalse (by simp [h])
  | .error a, .error b =>
    if h : a = b then isTrue (by rw [h]) else isFalse (by simp [h])
  | .ok _, .error _ => isFalse (by simp)
  | .error _, .ok _ => isFalse (by simp)

/-- Character class [a-zA-Z0-9] used by the validation patterns. -/
def isAlnum (c : Char) : Bool :=
  (('a' ≤ c) && (c ≤ 'z')) || (('A' ≤ c) && (c ≤ 'Z')) || (('0' ≤ c) && (c ≤ '9'))

/-- Character class [a-zA-Z0-9._-] of resource-id and version bodies. -/
def isResourceChar (c : Char) : Bool :=
  isAlnum c || c == '-' || c == '_' || c == '.'

/-- Character class [a-z]. -/
def isLowerAlpha (c : Char) : Bool := ('a' ≤ c) && (c ≤ 'z')

/-- Character class [0-9]. -/
def isDigit (c : Char) : Bool := ('0' ≤ c) && (c ≤ '9')

/-- Character class [a-z0-9]. -/
def isLowerAlnum (c : Char) : Bool := isLowerAlpha c || isDigit c

/-- Character class [a-z0-9-] of service-name bodies. -/
def isServiceChar (c : Char) : Bool := isLowerAlnum c || c == '-'

/-- Go regexp resourceIDPattern:
first and last characters alphanumeric, middle in the resource alphabet,
at most 198 middle characters (hence 1 to 200 characters in total). -/
def resourceIDPattern (s : Str) : Bool :=
  match s with
  | [] => false
  | [c] => isAlnum c
  | c :: rest =>
    isAlnum c && rest.dropLast.all isResourceChar && rest.dropLast.length ≤ 198 &&
      (match rest.getLast? with
       | some d => isAlnum d
       | none => false)

/-- Go regexp versionPattern: like the resource-id pattern but without a
length bound. -/
def versionPattern (s : Str) : Bool :=
  match s with
  | [] => false
  | [c] => isAlnum c
  | c :: rest =>
    isAlnum c && rest.dropLast.all isResourceChar &&
      (match rest.getLast? with
       | some d => isAlnum d
       | none => false)

/-- Go regexp servicePattern: DNS label, 1 to 63 characters, first a
lowercase letter, last a lowercase letter or digit. -/
def servicePattern (s : Str) : Bool :=
  match s with
  | [] => false
  | [c] => isLowerAlpha c
  | c :: rest =>
    isLowerAlpha c && rest.dropLast.all isServiceChar && rest.dropLast.length ≤ 61 &&
      (match rest.getLast? with
       | some d => isLowerAlnum d
       | none => false)

/-- Go IsValidResourceID. -/
def IsValidResourceID (id : Str) : Bool :=
  if id.isEmpty || 200 < id.length then false else resourceIDPattern id

/-- Go IsValidVersion. -/
def IsValidVersion (v : Str) : Bool :=
  if v == ([] : Str) || v == ['v'] then false else versionPattern v

/-- Go IsValidService. -/
def IsValidService (s : Str) : Bool :=
  if s.isEmpty then false else servicePattern s

/-- The fixed base domain. -/
def Domain : Str := "kopexa.com".data

/-- The dotted suffix used to recognise a service subdomain. -/
def dotDomain : Str := '.' :: Domain

/-- One collection/resource-id pair of a KRN path. -/
structure Segment where
  collection : Str
  resourceID : Str
deriving DecidableEq, Repr

/-- A parsed Kopexa Resource Name. -/
structure KRN where
  service : Str
  segments : List Segment
  version : Str
deriving DecidableEq, Repr

/-- Error kinds of the Go package (the wrapped sentinel errors). -/
inductive KRNError where
  | emptyKRN
  | invalidKRN
  | invalidDomain
  | invalidResourceID
  | invalidVersion
  | resourceNotFound
deriving DecidableEq, Repr

/-- Go strings.Split on a one-character separator. -/
def splitOn (sep : Char) : Str → List Str
  | [] => [[]]
  | c :: rest =>
    match splitOn sep rest with
    | [] => [[c]]
    | t :: ts => if c == sep then [] :: t :: ts else (c :: t) :: ts

/-- Go strings.Join on a one-character separator. -/
def joinSep (sep : Char) : List Str → Str
  | [] => []
  | [t] => t
  | t :: ts => t ++ sep :: joinSep sep ts

/-- Splitting at the last occurrence of a character, as Go's
strings.LastIndex plus the two slices taken around it in Parse.
Returns none when the character does not occur. -/
def splitAtLast (sep : Char) : Str → Option (Str × Str)
  | [] => none
  | c :: rest =>
    match splitAtLast sep rest with
    | some (pre, post) => some (c :: pre, post)
    | none => if c == sep then some ([], rest) else none

/-- Go strings.HasSuffix. -/
def hasSuffixList (s suf : Str) : Bool :=
  decide (suf.length ≤ s.length) && (s.drop (s.length - suf.length) == suf)

/-- The collection/resource-id pair loop of Go Parse. -/
def parsePairs : List Str → Except KRNError (List Segment)
  | [] => .ok []
  | [_] => .error .invalidKRN
  | coll :: rid :: rest =>
    if coll.isEmpty then .error .invalidKRN
    else if !IsValidResourceID rid then .error .invalidResourceID
    else
      match parsePairs rest with
      | .ok segs => .ok ({ collection := coll, resourceID := rid } :: segs)
      | .error e => .error e

/-- The resource-path stage of Go Parse: the even-length check followed by
the pair loop. -/
def parseResourcePath (toks : List Str) : Except KRNError (List Segment) :=
  if toks.length % 2 ≠ 0 then .error .invalidKRN else parsePairs toks

/-- The domain stage of Go Parse: the exact base domain, or a validated
service label followed by the dotted base domain. -/
def parseDomain (dom : Str) : Except KRNError Str :=
  if dom == Domain then .ok []
  else if hasSuffixList dom dotDomain then
    if !IsValidService (dom.take (dom.length - dotDomain.length)) then .error .invalidDomain
    else .ok (dom.take (dom.length - dotDomain.length))
  else .error .invalidDomain

/-- Go Parse after the marker and version have been split off:
split on the path separator, check the minimum token count, parse the
domain token, then the resource path. -/
def parseBody (body version : Str) : Except KRNError KRN :=
  let parts := splitOn '/' body
  if parts.length < 3 then .error .invalidKRN
  else
    match parts with
    | [] => .error .invalidKRN
    | dom :: resourcePath =>
      match parseDomain dom with
      | .error e => .error e
      | .ok service =>
        match parseResourcePath resourcePath with
        | .error e => .error e
        | .ok segs => .ok { service := service, segments := segs, version := version }

/-- Go Parse. -/
def Parse (s : Str) : Except KRNError KRN :=
  if s.isEmpty then .error .emptyKRN
  else if s.take 2 ≠ ['/', '/'] then .error .invalidKRN
  else
    match splitAtLast '@' (s.drop 2) with
    | some (body, ver) =>
      if !IsValidVersion ver then .error .invalidVersion
      else parseBody body ver
    | none => parseBody (s.drop 2) []

/-- The domain part written by Go KRN.String: the service label and a dot
when a service is present, then the base domain. -/
def renderService (service : Str) : Str :=
  if service.isEmpty then Domain else service ++ '.' :: Domain

/-- The path part written by Go KRN.String: a separator, the collection, a
separator and the resource id, for each segment in order. -/
def renderSegs (segs : List Segment) : Str :=
  segs.flatMap fun seg => '/' :: (seg.collection ++ '/' :: seg.resourceID)

/-- The version part written by Go KRN.String. -/
def renderVersion (version : Str) : Str :=
  if version.isEmpty then [] else '@' :: version

/-- Go KRN.String. -/
def KRN.String (k : KRN) : Str :=
  '/' :: '/' :: (renderService k.service ++ renderSegs k.segments ++ renderVersion k.version)

/-- Go KRN.Path. -/
def KRN.Path (k : KRN) : Str :=
  joinSep '/' (k.segments.flatMap fun seg => [seg.collection, seg.resourceID])

/-- Go KRN.HasVersion. -/
def KRN.HasVersion (k : KRN) : Bool := !k.version.isEmpty

/-- Go KRN.Basename. -/
def KRN.Basename (k : KRN) : Str :=
  match k.segments.getLast? with
  | none => []
  | some seg => seg.resourceID

/-- Go KRN.BasenameCollection. -/
def KRN.BasenameCollection (k : KRN) : Str :=
  match k.segments.getLast? with
  | none => []
  | some seg => seg.collection

/-- Go KRN.Depth. -/
def KRN.Depth (k : KRN) : Nat := k.segments.length

/-- Go KRN.Parent; the nil result is modelled as none. -/
def KRN.Parent (k : KRN) : Option KRN :=
  if k.segments.length ≤ 1 then none
  else some { service := k.service, segments := k.segments.dropLast, version := [] }

/-- Go KRN.Equals; the nil argument is modelled as none. -/
def KRN.Equals (k : KRN) : Option KRN → Bool
  | none => false
  | some o => k.String == o.String

/-- Go KRN.EqualsString. -/
def KRN.EqualsString (k : KRN) (other : Str) : Bool :=
  match Parse other with
  | .error _ => false
  | .ok o => k.Equals (some o)

/-- Go NewChild; the nil parent is modelled as none. -/
def NewChild (parent : Option KRN) (collection resourceID : Str) : Except KRNError KRN :=
  match parent with
  | none => .error .invalidKRN
  | some p =>
    if collection.isEmpty then .error .invalidKRN
    else if !IsValidResourceID resourceID then .error .invalidResourceID
    else .ok { service := p.service
               segments := p.segments ++ [{ collection := collection, resourceID := resourceID }]
               version := [] }

/-- Go SafeResourceID: the per-character replacement step. -/
def sanitizeChar (c : Char) : Char :=
  if isResourceChar c then c else '-'

/-- The cutset of Go strings.Trim(res, the dash-dot cutset) inside
SafeResourceID. -/
def isTrimChar (c : Char) : Bool := c == '-' || c == '.'

/-- Removal of leading characters satisfying a predicate
(Go strings.TrimLeft). -/
def trimLeft (p : Char → Bool) : Str → Str
  | [] => []
  | c :: rest => if p c then trimLeft p rest else c :: rest

/-- Removal of trailing characters satisfying a predicate
(Go strings.TrimRight). -/
def trimRight (p : Char → Bool) (s : Str) : Str :=
  (trimLeft p s.reverse).reverse

/-- The replace-then-trim stage of Go SafeResourceID. -/
def sanitizeTrimmed (s : Str) : Str :=
  trimRight isTrimChar (trimLeft isTrimChar (s.map sanitizeChar))

/-- Go SafeResourceID. -/
def SafeResourceID (s : Str) : Str :=
  if s.isEmpty then []
  else if 200 < (sanitizeTrimmed s).length then
    trimRight isTrimChar ((sanitizeTrimmed s).take 200)
  else sanitizeTrimmed s

/-- Go Builder. The stored error is modelled by its kind. -/
structure Builder where
  service : Str
  segments : List Segment
  version : Str
  err : Option KRNError
deriving DecidableEq, Repr

/-- Go New. -/
def New : Builder := { service := [], segments := [], version := [], err := none }

/-- Go Builder.Service. -/
def Builder.Service (b : Builder) (service : Str) : Builder :=
  if b.err.isSome then b
  else if !IsValidService service then { b with err := some .invalidDomain }
  else { b with service := service }

/-- Go Builder.Resource. -/
def Builder.Resource (b : Builder) (collection resourceID : Str) : Builder :=
  if b.err.isSome then b
  else if collection.isEmpty then { b with err := some .invalidKRN }
  else if !IsValidResourceID resourceID then { b with err := some .invalidResourceID }
  else { b with segments :=
    b.segments ++ [{ collection := collection, resourceID := resourceID }] }

/-- Go Builder.Version. -/
def Builder.Version (b : Builder) (version : Str) : Builder :=
  if b.err.isSome then b
  else if !IsValidVersion version then { b with err := some .invalidVersion }
  else { b with version := version }

/-- Go Builder.Build. -/
def Builder.Build (b : Builder) : Except KRNError KRN :=
  match b.err with
  | some e => .error e
  | none =>
    if b.segments.isEmpty then .error .invalidKRN
    else .ok { service := b.service, segments := b.segments, version := b.version }

/-- One call in a fluent builder chain. -/
inductive BuildStep where
  | service (s : Str)
  | resource (collection resourceID : Str)
  | version (v : Str)
deriving DecidableEq, Repr

/-- Application of one builder call. -/
def applyStep (b : Builder) : BuildStep → Builder
  | .service s => b.Service s
  | .resource c r => b.Resource c r
  | .version v => b.Version v

/-- A whole fluent chain starting from New. -/
def runSteps (steps : List BuildStep) : Builder := steps.foldl applyStep New

/-- Validity of one segment, as checked by Parse, Builder.Resource and
NewChild: non-empty collection and valid resource id. -/
def SegmentWF (seg : Segment) : Bool :=
  !seg.collection.isEmpty && IsValidResourceID seg.resourceID

/-- A collection free of the two separator characters of the text grammar. -/
def collectionPlain (seg : Segment) : Bool :=
  seg.collection.all fun c => !(c == '/') && !(c == '@')

/-- A builder step whose collection argument, if any, is separator-free. -/
def stepPlain : BuildStep → Bool
  | .resource c _ => c.all fun ch => !(ch == '/') && !(ch == '@')
  | _ => true

/-- Invariant of the builder accumulator: while no error has been recorded,
every accumulated field passes its validator and every accumulated
collection is separator-free. -/
def BuilderInv (b : Builder) : Prop :=
  b.err = none →
    (b.service.isEmpty || IsValidService b.service) = true ∧
    (∀ seg ∈ b.segments, SegmentWF seg = true ∧ collectionPlain seg = true) ∧
    (b.version.isEmpty || IsValidVersion b.version) = true

/-- Well-formedness of a KRN value: each field passes the validator that
every public constructor applies to it. -/
def KRN.WF (k : KRN) : Bool :=
  (k.service.isEmpty || IsValidService k.service) &&
  k.segments.all SegmentWF &&
  (k.version.isEmpty || IsValidVersion k.version)

/-! ## List infrastructure lemmas -/

theorem splitOn_ne_nil (sep : Char) (s : Str) : splitOn sep s ≠ [] := by
  cases s with
  | nil => simp [splitOn]
  | cons c rest =>
    simp only [splitOn]
    cases h : splitOn sep rest with
    | nil => simp
    | cons t ts =>
      by_cases hc : c == sep <;> simp [hc]

theorem joinSep_cons (sep : Char) (t : Str) (ts : List Str) :
    joinSep sep (t :: ts) = t ++ ts.flatMap (fun u => sep :: u) := by
  induction ts generalizing t with
  | nil => simp [joinSep]
  | cons u us ih =>
    show t ++ sep :: joinSep sep (u :: us) = _
    rw [ih u]
    simp

theorem joinSep_splitOn (sep : Char) (s : Str) : joinSep sep (splitOn sep s) = s := by
  induction s with
  | nil => simp [splitOn, joinSep]
  | cons c rest ih =>
    simp only [splitOn]
    cases h : splitOn sep rest with
    | nil => exact absurd h (splitOn_ne_nil sep rest)
    | cons t ts =>
      rw [h] at ih
      by_cases hc : c == sep
      · have hceq : c = sep := eq_of_beq hc
        simp only [hc, if_true]
        show [] ++ sep :: joinSep sep (t :: ts) = c :: rest
        rw [ih, hceq]
        rfl
      · simp only [hc]
        show joinSep sep ((c :: t) :: ts) = c :: rest
        cases ts with
        | nil =>
          show c :: t = c :: rest
          rw [show joinSep sep [t] = t from rfl] at ih
          rw [ih]
        | cons v vs =>
          show (c :: t) ++ sep :: joinSep sep (v :: vs) = c :: rest
          show c :: (t ++ sep :: joinSep sep (v :: vs)) = c :: rest
          rw [show t ++ sep :: joinSep sep (v :: vs) = joinSep sep (t :: v :: vs) from rfl, ih]

theorem splitOn_of_not_mem (sep : Char) (t : Str) (h : sep ∉ t) : splitOn sep t = [t] := by
  induction t with
  | nil => simp [splitOn]
  | cons c rest ih =>
    have hc : ¬ c == sep := by
      simp only [beq_iff_eq]
      intro hh
      exact h (by simp [hh])
    have hrest : sep ∉ rest := fun hm => h (by simp [hm])
    simp [splitOn, ih hrest, hc]

theorem splitOn_append (sep : Char) (t u : Str) (h : sep ∉ t) :
    splitOn sep (t ++ sep :: u) = t :: splitOn sep u := by
  induction t with
  | nil =>
    simp only [List.nil_append, splitOn]
    cases hu : splitOn sep u with
    | nil => exact absurd hu (splitOn_ne_nil sep u)
    | cons v vs => simp
  | cons c rest ih =>
    have hc : ¬ c == sep := by
      simp only [beq_iff_eq]
      intro hh
      exact h (by simp [hh])
    have hrest : sep ∉ rest := fun hm => h (by simp [hm])
    show splitOn sep (c :: (rest ++ sep :: u)) = (c :: rest) :: splitOn sep u
    simp [splitOn, ih hrest, hc]

theorem splitOn_tokens (sep : Char) (a : Str) (toks : List Str) (ha : sep ∉ a)
    (htoks : ∀ t ∈ toks, sep ∉ t) :
    splitOn sep (a ++ toks.flatMap (fun u => sep :: u)) = a :: toks := by
  induction toks generalizing a with
  | nil => simp [splitOn_of_not_mem sep a ha]
  | cons t ts ih =>
    have step : a ++ (t :: ts).flatMap (fun u => sep :: u) =
        a ++ sep :: (t ++ ts.flatMap (fun u => sep :: u)) := by simp
    rw [step, splitOn_append sep a _ ha,
      ih t (htoks t (by simp)) (fun v hv => htoks v (by simp [hv]))]

theorem splitAtLast_eq_none (sep : Char) (s : Str) :
    splitAtLast sep s = none ↔ sep ∉ s := by
  induction s with
  | nil => simp [splitAtLast]
  | cons c rest ih =>
    simp only [splitAtLast]
    cases h : splitAtLast sep rest with
    | some pr =>
      have : sep ∈ rest := by
        by_contra hn
        rw [ih.mpr hn] at h
        exact absurd h (by simp)
      simp [this]
    | none =>
      have hrest : sep ∉ rest := ih.mp h
      by_cases hc : c == sep
      · have hceq : c = sep := eq_of_beq hc
        subst hceq
        simp [hc]
      · have hne : c ≠ sep := by simpa using hc
        simp only [hc, List.mem_cons, not_or]
        constructor
        · intro _
          exact ⟨fun hh => hne hh.symm, hrest⟩
        · intro _
          simp

theorem splitAtLast_eq_some (sep : Char) (s pre post : Str)
    (h : splitAtLast sep s = some (pre, post)) :
    s = pre ++ sep :: post ∧ sep ∉ post := by
  induction s generalizing pre post with
  | nil => simp [splitAtLast] at h
  | cons c rest ih =>
    simp only [splitAtLast] at h
    cases hr : splitAtLast sep rest with
    | some pr =>
      rw [hr] at h
      obtain ⟨p, q⟩ := pr
      simp only [Option.some.injEq, Prod.mk.injEq] at h
      obtain ⟨h1, h2⟩ := h
      subst h1
      subst h2
      obtain ⟨hrec1, hrec2⟩ := ih p q hr
      exact ⟨by simp [hrec1], hrec2⟩
    | none =>
      rw [hr] at h
      by_cases hc : c == sep
      · have hceq : c = sep := eq_of_beq hc
        simp only [hc, if_true, Option.some.injEq, Prod.mk.injEq] at h
        obtain ⟨h1, h2⟩ := h
        subst h1
        subst h2
        exact ⟨by simp [hceq], (splitAtLast_eq_none sep rest).mp hr⟩
      · simp [hc] at h

theorem splitAtLast_append (sep : Char) (pre post : Str) (h : sep ∉ post) :
    splitAtLast sep (pre ++ sep :: post) = some (pre, post) := by
  induction pre with
  | nil =>
    simp only [List.nil_append, splitAtLast]
    rw [(splitAtLast_eq_none sep post).mpr h]
    simp
  | cons c cs ih =>
    show splitAtLast sep (c :: (cs ++ sep :: post)) = _
    simp only [splitAtLast, ih]

theorem take_two_shape (s : Str) (h : s.take 2 = ['/', '/']) :
    s = '/' :: '/' :: s.drop 2 := by
  cases s with
  | nil => simp at h
  | cons a rest =>
    cases rest with
    | nil => simp [List.take] at h
    | cons b rest2 =>
      simp only [List.take, List.cons.injEq] at h
      obtain ⟨h1, h2, -⟩ := h
      subst h1
      subst h2
      rfl

theorem not_mem_of_all {p : Char → Bool} {s : Str} (h : ∀ c ∈ s, p c = true)
    {x : Char} (hx : p x = false) : x ∉ s := by
  intro hmem
  rw [h x hmem] at hx
  exact absurd hx (by simp)

/-! ## Trim lemmas for the sanitizer -/

theorem trimLeft_head? {p : Char → Bool} {l : Str} {c : Char}
    (h : (trimLeft p l).head? = some c) : p c = false := by
  induction l with
  | nil => simp [trimLeft] at h
  | cons a rest ih =>
    simp only [trimLeft] at h
    by_cases ha : p a
    · rw [if_pos ha] at h
      exact ih h
    · rw [if_neg ha] at h
      simp only [List.head?_cons, Option.some.injEq] at h
      subst h
      simpa using ha

theorem trimLeft_of_head {p : Char → Bool} {c : Char} (l : Str) (h : p c = false) :
    trimLeft p (c :: l) = c :: l := by
  simp [trimLeft, h]

theorem trimLeft_suffix_decomp (p : Char → Bool) (l : Str) :
    ∃ u, l = u ++ trimLeft p l := by
  induction l with
  | nil => exact ⟨[], rfl⟩
  | cons a rest ih =>
    by_cases ha : p a
    · obtain ⟨u, hu⟩ := ih
      exact ⟨a :: u, by simp [trimLeft, ha, ← hu]⟩
    · exact ⟨[], by simp [trimLeft, ha]⟩

theorem trimRight_decomp (p : Char → Bool) (l : Str) :
    ∃ u, l = trimRight p l ++ u := by
  obtain ⟨u, hu⟩ := trimLeft_suffix_decomp p l.reverse
  refine ⟨u.reverse, ?_⟩
  have := congrArg List.reverse hu
  simpa [trimRight] using this

theorem trimRight_getLast? {p : Char → Bool} {l : Str} {c : Char}
    (h : (trimRight p l).getLast? = some c) : p c = false := by
  have : (trimLeft p l.reverse).head? = some c := by
    rw [← List.getLast?_reverse]
    simpa [trimRight] using h
  exact trimLeft_head? this

theorem trimRight_of_getLast {p : Char → Bool} {l : Str} {c : Char}
    (hl : l.getLast? = some c) (h : p c = false) : trimRight p l = l := by
  have hrev : l.reverse.head? = some c := by rw [List.head?_reverse]; exact hl
  cases hr : l.reverse with
  | nil => rw [hr] at hrev; simp at hrev
  | cons a rest =>
    rw [hr] at hrev
    simp only [List.head?_cons, Option.some.injEq] at hrev
    subst hrev
    have : trimLeft p l.reverse = l.reverse := by rw [hr]; exact trimLeft_of_head rest h
    simp [trimRight, this]

theorem trimRight_head? {p : Char → Bool} {l : Str} {c : Char}
    (h : (trimRight p l).head? = some c) : l.head? = some c := by
  obtain ⟨u, hu⟩ := trimRight_decomp p l
  cases ht : trimRight p l with
  | nil => rw [ht] at h; simp at h
  | cons a rest =>
    rw [ht] at h
    simp only [List.head?_cons, Option.some.injEq] at h
    subst h
    rw [hu, ht]
    simp

theorem mem_trimLeft {p : Char → Bool} {l : Str} {x : Char}
    (h : x ∈ trimLeft p l) : x ∈ l := by
  obtain ⟨u, hu⟩ := trimLeft_suffix_decomp p l
  rw [hu]
  exact List.mem_append_right u h

theorem mem_trimRight {p : Char → Bool} {l : Str} {x : Char}
    (h : x ∈ trimRight p l) : x ∈ l := by
  obtain ⟨u, hu⟩ := trimRight_decomp p l
  rw [hu]
  exact List.mem_append_left u h

theorem length_trimLeft_le (p : Char → Bool) (l : Str) :
    (trimLeft p l).length ≤ l.length := by
  induction l with
  | nil => simp [trimLeft]
  | cons a rest ih =>
    by_cases ha : p a
    · simp only [trimLeft, ha, if_true, List.length_cons]
      omega
    · simp [trimLeft, ha]

theorem length_trimRight_le (p : Char → Bool) (l : Str) :
    (trimRight p l).length ≤ l.length := by
  have := length_trimLeft_le p l.reverse
  simpa [trimRight] using this

/-! ## Character lemmas about the validators -/

theorem isAlnum_isResourceChar {c : Char} (h : isAlnum c = true) :
    isResourceChar c = true := by
  simp [isResourceChar, h]

theorem isLowerAlpha_isServiceChar {c : Char} (h : isLowerAlpha c = true) :
    isServiceChar c = true := by
  simp [isServiceChar, isLowerAlnum, h]

theorem isLowerAlnum_isServiceChar {c : Char} (h : isLowerAlnum c = true) :
    isServiceChar c = true := by
  simp [isServiceChar, h]

theorem mem_last_of_ne_nil {α : Type} {rest : List α} {x : α} (hne : rest ≠ [])
    (hx : x ∈ rest) : x ∈ rest.dropLast ∨ x = rest.getLast hne := by
  have hdec := List.dropLast_append_getLast hne
  rw [← hdec] at hx
  rcases List.mem_append.mp hx with hmem | hmem
  · exact Or.inl hmem
  · exact Or.inr (by simpa using hmem)

theorem chars_of_version {v : Str} (h : IsValidVersion v = true) :
    ∀ c ∈ v, isResourceChar c = true := by
  intro c hc
  unfold IsValidVersion at h
  split at h
  · exact absurd h (by simp)
  · cases v with
    | nil => simp at hc
    | cons a rest =>
      cases rest with
      | nil =>
        simp only [List.mem_singleton] at hc
        subst hc
        exact isAlnum_isResourceChar (by simpa [versionPattern] using h)
      | cons b rest2 =>
        simp only [versionPattern, Bool.and_eq_true] at h
        obtain ⟨⟨ha, hmid⟩, hlast⟩ := h
        rcases List.mem_cons.mp hc with rfl | hc2
        · exact isAlnum_isResourceChar ha
        · have hne : b :: rest2 ≠ [] := by simp
          rcases mem_last_of_ne_nil hne hc2 with hd | hl
          · exact List.all_eq_true.mp hmid c hd
          · have hsome : (b :: rest2).getLast? = some ((b :: rest2).getLast hne) :=
              List.getLast?_eq_getLast _ hne
            rw [hsome] at hlast
            rw [hl]
            exact isAlnum_isResourceChar hlast

theorem chars_of_resourceID {r : Str} (h : IsValidResourceID r = true) :
    ∀ c ∈ r, isResourceChar c = true := by
  intro c hc
  unfold IsValidResourceID at h
  split at h
  · exact absurd h (by simp)
  · cases r with
    | nil => simp at hc
    | cons a rest =>
      cases rest with
      | nil =>
        simp only [List.mem_singleton] at hc
        subst hc
        exact isAlnum_isResourceChar (by simpa [resourceIDPattern] using h)
      | cons b rest2 =>
        simp only [resourceIDPattern, Bool.and_eq_true] at h
        obtain ⟨⟨⟨ha, hmid⟩, -⟩, hlast⟩ := h
        rcases List.mem_cons.mp hc with rfl | hc2
        · exact isAlnum_isResourceChar ha
        · have hne : b :: rest2 ≠ [] := by simp
          rcases mem_last_of_ne_nil hne hc2 with hd | hl
          · exact List.all_eq_true.mp hmid c hd
          · have hsome : (b :: rest2).getLast? = some ((b :: rest2).getLast hne) :=
              List.getLast?_eq_getLast _ hne
            rw [hsome] at hlast
            rw [hl]
            exact isAlnum_isResourceChar hlast

theorem chars_of_service {s : Str} (h : IsValidService s = true) :
    ∀ c ∈ s, isServiceChar c = true := by
  intro c hc
  unfold IsValidService at h
  split at h
  · exact absurd h (by simp)
  · cases s with
    | nil => simp at hc
    | cons a rest =>
      cases rest with
      | nil =>
        simp only [List.mem_singleton] at hc
        subst hc
        exact isLowerAlpha_isServiceChar (by simpa [servicePattern] using h)
      | cons b rest2 =>
        simp only [servicePattern, Bool.and_eq_true] at h
        obtain ⟨⟨⟨ha, hmid⟩, -⟩, hlast⟩ := h
        rcases List.mem_cons.mp hc with rfl | hc2
        · exact isLowerAlpha_isServiceChar ha
        · have hne : b :: rest2 ≠ [] := by simp
          rcases mem_last_of_ne_nil hne hc2 with hd | hl
          · exact List.all_eq_true.mp hmid c hd
          · have hsome : (b :: rest2).getLast? = some ((b :: rest2).getLast hne) :=
              List.getLast?_eq_getLast _ hne
            rw [hsome] at hlast
            rw [hl]
            exact isLowerAlnum_isServiceChar hlast

theorem validVersion_ne_nil {v : Str} (h : IsValidVersion v = true) : v ≠ [] := by
  intro hv
  subst hv
  simp [IsValidVersion] at h

theorem validService_ne_nil {s : Str} (h : IsValidService s = true) : s ≠ [] := by
  intro hs
  subst hs
  simp [IsValidService] at h

theorem validResourceID_ne_nil {r : Str} (h : IsValidResourceID r = true) : r ≠ [] := by
  intro hr
  subst hr
  simp [IsValidResourceID] at h

/-! ## The serializer inverts the parser -/

theorem parsePairs_render : ∀ (toks : List Str) (segs : List Segment),
    parsePairs toks = .ok segs → renderSegs segs = toks.flatMap (fun t => '/' :: t)
  | [], segs, h => by
    simp only [parsePairs, Except.ok.injEq] at h
    subst h
    simp [renderSegs]
  | [t], segs, h => by
    simp [parsePairs] at h
  | coll :: rid :: rest, segs, h => by
    rw [parsePairs] at h
    split at h
    · exact absurd h (by simp)
    · split at h
      · exact absurd h (by simp)
      · split at h
        next segs2 hrec =>
          simp only [Except.ok.injEq] at h
          subst h
          have ih := parsePairs_render rest segs2 hrec
          simp only [renderSegs, List.flatMap_cons] at ih ⊢
          rw [ih]
          simp
        next e hrec =>
          exact absurd h (by simp)

theorem parseDomain_render {dom svc : Str} (h : parseDomain dom = .ok svc) :
    renderService svc = dom := by
  unfold parseDomain at h
  split at h
  next hdom =>
    simp only [Except.ok.injEq] at h
    subst h
    simp only [renderService, List.isEmpty_nil, if_true]
    exact (eq_of_beq hdom).symm
  next hdom =>
    split at h
    next hsuf =>
      split at h
      · exact absurd h (by simp)
      next hvalid =>
        simp only [Except.ok.injEq] at h
        subst h
        have hval : IsValidService (dom.take (dom.length - dotDomain.length)) = true := by
          simpa using hvalid
        have hne := validService_ne_nil hval
        simp only [hasSuffixList, Bool.and_eq_true, decide_eq_true_eq, beq_iff_eq] at hsuf
        obtain ⟨hlen, hdrop⟩ := hsuf
        have hsplit := List.take_append_drop (dom.length - dotDomain.length) dom
        rw [renderService, if_neg (by simp [List.isEmpty_iff, hne])]
        calc dom.take (dom.length - dotDomain.length) ++ '.' :: Domain
            = dom.take (dom.length - dotDomain.length) ++
                dom.drop (dom.length - dotDomain.length) := by rw [hdrop]; rfl
          _ = dom := hsplit
    next hsuf =>
      exact absurd h (by simp)

theorem parseBody_render {body ver : Str} {k : KRN} (h : parseBody body ver = .ok k) :
    renderService k.service ++ renderSegs k.segments = body ∧ k.version = ver := by
  simp only [parseBody] at h
  split at h
  · exact absurd h (by simp)
  next hlen =>
    split at h
    · exact absurd h (by simp)
    next dom resourcePath hparts =>
      split at h
      next e hdom =>
        exact absurd h (by simp)
      next svc hdom =>
        split at h
        next e hsegs =>
          exact absurd h (by simp)
        next segs hsegs =>
          simp only [Except.ok.injEq] at h
          subst h
          refine ⟨?_, rfl⟩
          have hrender := parseDomain_render hdom
          have hpairs : parsePairs resourcePath = .ok segs := by
            unfold parseResourcePath at hsegs
            split at hsegs
            · exact absurd hsegs (by simp)
            · exact hsegs
          have hsegsrender := parsePairs_render resourcePath segs hpairs
          have hjoin := joinSep_splitOn '/' body
          rw [hparts, joinSep_cons] at hjoin
          show renderService svc ++ renderSegs segs = body
          rw [hrender, hsegsrender, hjoin]

/-- Claim C1: for every identifier text accepted by Parse, serializing the
parsed value yields the input back exactly, byte for byte, including inputs
with a service subdomain and a version suffix. -/
theorem parse_roundTrip (s : Str) (k : KRN) (h : Parse s = .ok k) : k.String = s := by
  unfold Parse at h
  split at h
  · exact absurd h (by simp)
  next hempty =>
    split at h
    · exact absurd h (by simp)
    next hmark =>
      have hshape : s = '/' :: '/' :: s.drop 2 := take_two_shape s (not_not.mp hmark)
      split at h
      next body ver hsplit =>
        split at h
        · exact absurd h (by simp)
        next hver =>
          obtain ⟨hb, hnoat⟩ := splitAtLast_eq_some '@' (s.drop 2) body ver hsplit
          obtain ⟨hbody, hversion⟩ := parseBody_render h
          have hvalid : IsValidVersion ver = true := by simpa using hver
          have hvne : ver ≠ [] := validVersion_ne_nil hvalid
          rw [KRN.String, hbody, hversion, renderVersion,
            if_neg (by simp [List.isEmpty_iff, hvne])]
          rw [hshape, hb]
      next hsplit =>
        obtain ⟨hbody, hversion⟩ := parseBody_render h
        rw [KRN.String, hbody, hversion]
        simp only [renderVersion, List.isEmpty_nil, if_true, List.append_nil]
        exact hshape.symm

/-! ## The parser inverts the serializer on well-formed values -/

theorem renderSegs_flat (segs : List Segment) :
    renderSegs segs =
      (segs.flatMap fun seg => [seg.collection, seg.resourceID]).flatMap
        (fun t => '/' :: t) := by
  induction segs with
  | nil => simp [renderSegs]
  | cons seg rest ih =>
    simp only [renderSegs, List.flatMap_cons] at ih ⊢
    rw [ih]
    simp

theorem flattenPairs_length (segs : List Segment) :
    (segs.flatMap fun seg => [seg.collection, seg.resourceID]).length = 2 * segs.length := by
  induction segs with
  | nil => simp
  | cons seg rest ih =>
    simp only [List.flatMap_cons, List.length_append, List.length_cons, ih, List.length_nil]
    omega

theorem parsePairs_flatten (segs : List Segment)
    (h : ∀ seg ∈ segs, SegmentWF seg = true) :
    parsePairs (segs.flatMap fun seg => [seg.collection, seg.resourceID]) = .ok segs := by
  induction segs with
  | nil => simp [parsePairs]
  | cons seg rest ih =>
    have hseg := h seg (by simp)
    simp only [SegmentWF, Bool.and_eq_true, Bool.not_eq_true'] at hseg
    obtain ⟨hcoll, hrid⟩ := hseg
    have hih := ih (fun s hs => h s (by simp [hs]))
    simp only [List.flatMap_cons, List.cons_append, List.nil_append]
    rw [parsePairs]
    rw [if_neg (by simp [hcoll]), if_neg (by simp [hrid]), hih]

theorem domain_chars : ∀ c ∈ Domain, c ≠ '/' ∧ c ≠ '@' := by decide

theorem not_slash_renderService {svc : Str}
    (h : svc.isEmpty = true ∨ IsValidService svc = true) : '/' ∉ renderService svc := by
  intro hmem
  rcases h with hsvc | hsvc
  · rw [renderService, if_pos hsvc] at hmem
    exact absurd rfl (domain_chars '/' hmem).1
  · rw [renderService, if_neg (by simp [List.isEmpty_iff, validService_ne_nil hsvc])] at hmem
    rcases List.mem_append.mp hmem with hm | hm
    · have := chars_of_service hsvc '/' hm
      exact absurd this (by decide)
    · rcases List.mem_cons.mp hm with hm2 | hm2
      · exact absurd hm2 (by decide)
      · exact absurd rfl (domain_chars '/' hm2).1

theorem not_at_renderService {svc : Str}
    (h : svc.isEmpty = true ∨ IsValidService svc = true) : '@' ∉ renderService svc := by
  intro hmem
  rcases h with hsvc | hsvc
  · rw [renderService, if_pos hsvc] at hmem
    exact absurd rfl (domain_chars '@' hmem).2
  · rw [renderService, if_neg (by simp [List.isEmpty_iff, validService_ne_nil hsvc])] at hmem
    rcases List.mem_append.mp hmem with hm | hm
    · have := chars_of_service hsvc '@' hm
      exact absurd this (by decide)
    · rcases List.mem_cons.mp hm with hm2 | hm2
      · exact absurd hm2 (by decide)
      · exact absurd rfl (domain_chars '@' hm2).2

theorem flattenPairs_tokens {segs : List Segment}
    (hwf : ∀ seg ∈ segs, SegmentWF seg = true)
    (hplain : ∀ seg ∈ segs, collectionPlain seg = true) :
    ∀ t ∈ (segs.flatMap fun seg => [seg.collection, seg.resourceID]),
      '/' ∉ t ∧ '@' ∉ t := by
  intro t ht
  rw [List.mem_flatMap] at ht
  obtain ⟨seg, hseg, hmem⟩ := ht
  have hwfseg := hwf seg hseg
  have hplainseg := hplain seg hseg
  simp only [SegmentWF, Bool.and_eq_true, Bool.not_eq_true'] at hwfseg
  simp only [collectionPlain, List.all_eq_true, Bool.and_eq_true, Bool.not_eq_true',
    beq_eq_false_iff_ne] at hplainseg
  rcases List.mem_cons.mp hmem with rfl | hmem2
  · constructor
    · intro hc
      exact (hplainseg '/' hc).1 rfl
    · intro hc
      exact (hplainseg '@' hc).2 rfl
  · rcases List.mem_cons.mp hmem2 with rfl | hmem3
    · constructor
      · intro hc
        have := chars_of_resourceID hwfseg.2 '/' hc
        exact absurd this (by decide)
      · intro hc
        have := chars_of_resourceID hwfseg.2 '@' hc
        exact absurd this (by decide)
    · simp at hmem3

theorem not_at_renderSegs {segs : List Segment}
    (hwf : ∀ seg ∈ segs, SegmentWF seg = true)
    (hplain : ∀ seg ∈ segs, collectionPlain seg = true) :
    '@' ∉ renderSegs segs := by
  intro hmem
  rw [renderSegs_flat, List.mem_flatMap] at hmem
  obtain ⟨t, ht, hc⟩ := hmem
  rcases List.mem_cons.mp hc with hcc | hcc
  · exact absurd hcc (by decide)
  · exact (flattenPairs_tokens hwf hplain t ht).2 hcc

theorem parseDomain_of_render {svc : Str}
    (h : svc.isEmpty = true ∨ IsValidService svc = true) :
    parseDomain (renderService svc) = .ok svc := by
  rcases h with hsvc | hsvc
  · have : svc = [] := by simpa [List.isEmpty_iff] using hsvc
    subst this
    rw [renderService]
    simp [parseDomain]
  · have hne := validService_ne_nil hsvc
    rw [renderService, if_neg (by simp [List.isEmpty_iff, hne])]
    have hformdot : svc ++ '.' :: Domain = svc ++ dotDomain := rfl
    rw [hformdot]
    have hlendom : (svc ++ dotDomain).length = svc.length + dotDomain.length := by simp
    have hneq : ¬ ((svc ++ dotDomain) == Domain) = true := by
      simp only [beq_iff_eq]
      intro heq
      have hl := congrArg List.length heq
      simp only [List.length_append] at hl
      have : dotDomain.length = 11 := by decide
      have hd : Domain.length = 10 := by decide
      omega
    rw [parseDomain, if_neg (by simpa using hneq)]
    have hsuffix : hasSuffixList (svc ++ dotDomain) dotDomain = true := by
      simp only [hasSuffixList, Bool.and_eq_true, decide_eq_true_eq, beq_iff_eq]
      constructor
      · simp
      · have : (svc ++ dotDomain).length - dotDomain.length = svc.length := by
          simp only [List.length_append]
          omega
        rw [this, List.drop_left]
    rw [if_pos hsuffix]
    have htake : (svc ++ dotDomain).take ((svc ++ dotDomain).length - dotDomain.length) = svc := by
      have : (svc ++ dotDomain).length - dotDomain.length = svc.length := by
        simp only [List.length_append]
        omega
      rw [this, List.take_left]
    rw [htake, if_neg (by simp [hsvc])]

theorem parse_render (k : KRN) (hwf : k.WF = true) (hne : k.segments ≠ [])
    (hplain : ∀ seg ∈ k.segments, collectionPlain seg = true) :
    Parse k.String = .ok k := by
  simp only [KRN.WF, Bool.and_eq_true] at hwf
  obtain ⟨⟨hsvc, hsegs⟩, hver⟩ := hwf
  have hsvc2 : k.service.isEmpty = true ∨ IsValidService k.service = true := by
    rcases Bool.or_eq_true_iff.mp hsvc with h | h
    · exact Or.inl h
    · exact Or.inr h
  have hsegs2 : ∀ seg ∈ k.segments, SegmentWF seg = true := List.all_eq_true.mp hsegs
  have hbodysplit :
      splitOn '/' (renderService k.service ++ renderSegs k.segments) =
        renderService k.service ::
          (k.segments.flatMap fun seg => [seg.collection, seg.resourceID]) := by
    rw [renderSegs_flat]
    exact splitOn_tokens '/' _ _ (not_slash_renderService hsvc2)
      (fun t ht => (flattenPairs_tokens hsegs2 hplain t ht).1)
  have hbodyparse :
      parseBody (renderService k.service ++ renderSegs k.segments) k.version = .ok k := by
    simp only [parseBody, hbodysplit]
    have hlen3 : ¬ ((renderService k.service ::
        (k.segments.flatMap fun seg => [seg.collection, seg.resourceID])).length < 3) := by
      simp only [List.length_cons, flattenPairs_length]
      have : 1 ≤ k.segments.length := by
        cases hsg : k.segments with
        | nil => exact absurd hsg hne
        | cons a b => simp
      omega
    rw [if_neg hlen3]
    rw [parseDomain_of_render hsvc2]
    have hpath : parseResourcePath
        (k.segments.flatMap fun seg => [seg.collection, seg.resourceID]) = .ok k.segments := by
      rw [parseResourcePath, if_neg (by rw [flattenPairs_length]; omega)]
      exact parsePairs_flatten k.segments hsegs2
    rw [hpath]
  rw [KRN.String]
  rw [Parse]
  rw [if_neg (by simp)]
  rw [if_neg (by simp)]
  have hdrop : ('/' :: '/' ::
      (renderService k.service ++ renderSegs k.segments ++ renderVersion k.version)).drop 2 =
      renderService k.service ++ renderSegs k.segments ++ renderVersion k.version := rfl
  rw [hdrop]
  by_cases hv : k.version.isEmpty
  · have hvnil : k.version = [] := by simpa [List.isEmpty_iff] using hv
    rw [renderVersion, if_pos hv, List.append_nil]
    have hnoat : '@' ∉ renderService k.service ++ renderSegs k.segments := by
      intro hmem
      rcases List.mem_append.mp hmem with hm | hm
      · exact not_at_renderService hsvc2 hm
      · exact not_at_renderSegs hsegs2 hplain hm
    rw [(splitAtLast_eq_none '@' _).mpr hnoat]
    rw [hvnil] at hbodyparse
    exact hbodyparse
  · have hvver : IsValidVersion k.version = true := by
      rcases Bool.or_eq_true_iff.mp hver with h | h
      · exact absurd h (by simpa using hv)
      · exact h
    rw [renderVersion, if_neg (by simp [hv])]
    have hnoatver : '@' ∉ k.version := by
      intro hmem
      have := chars_of_version hvver '@' hmem
      exact absurd this (by decide)
    rw [splitAtLast_append '@' _ _ hnoatver]
    show (if (!IsValidVersion k.version) = true then Except.error KRNError.invalidVersion
      else parseBody (renderService k.service ++ renderSegs k.segments) k.version) = Except.ok k
    rw [if_neg (by simp [hvver])]
    exact hbodyparse

/-! ## Builder invariants -/

theorem applyStep_inv (b : Builder) (st : BuildStep) (hst : stepPlain st = true)
    (hb : BuilderInv b) : BuilderInv (applyStep b st) := by
  cases st with
  | service s =>
    show BuilderInv (b.Service s)
    rw [Builder.Service]
    by_cases herr : b.err.isSome
    · rw [if_pos herr]
      exact hb
    · rw [if_neg herr]
      have hbn : b.err = none := Option.not_isSome_iff_eq_none.mp herr
      by_cases hval : !IsValidService s
      · rw [if_pos hval]
        intro hcontra
        simp at hcontra
      · rw [if_neg hval]
        intro _
        have hvs : IsValidService s = true := by simpa using hval
        obtain ⟨-, h2, h3⟩ := hb hbn
        exact ⟨by simp [hvs], h2, h3⟩
  | resource c r =>
    show BuilderInv (b.Resource c r)
    rw [Builder.Resource]
    by_cases herr : b.err.isSome
    · rw [if_pos herr]
      exact hb
    · rw [if_neg herr]
      have hbn : b.err = none := Option.not_isSome_iff_eq_none.mp herr
      by_cases hc : c.isEmpty
      · rw [if_pos hc]
        intro hcontra
        simp at hcontra
      · rw [if_neg hc]
        by_cases hr : !IsValidResourceID r
        · rw [if_pos hr]
          intro hcontra
          simp at hcontra
        · rw [if_neg hr]
          intro _
          obtain ⟨h1, h2, h3⟩ := hb hbn
          refine ⟨h1, ?_, h3⟩
          intro seg hseg
          rcases List.mem_append.mp hseg with hm | hm
          · exact h2 seg hm
          · have hsm : seg = ⟨c, r⟩ := by simpa using hm
            subst hsm
            constructor
            · simp only [SegmentWF, Bool.and_eq_true]
              exact ⟨by simp [hc], by simpa using hr⟩
            · simpa [collectionPlain, stepPlain] using hst
  | version v =>
    show BuilderInv (b.Version v)
    rw [Builder.Version]
    by_cases herr : b.err.isSome
    · rw [if_pos herr]
      exact hb
    · rw [if_neg herr]
      have hbn : b.err = none := Option.not_isSome_iff_eq_none.mp herr
      by_cases hval : !IsValidVersion v
      · rw [if_pos hval]
        intro hcontra
        simp at hcontra
      · rw [if_neg hval]
        intro _
        obtain ⟨h1, h2, -⟩ := hb hbn
        exact ⟨h1, h2, by simp [show IsValidVersion v = true by simpa using hval]⟩

theorem foldl_inv : ∀ (steps : List BuildStep) (b : Builder),
    (∀ st ∈ steps, stepPlain st = true) → BuilderInv b →
    BuilderInv (steps.foldl applyStep b)
  | [], b, _, hb => hb
  | st :: rest, b, hsteps, hb => by
    show BuilderInv (rest.foldl applyStep (applyStep b st))
    exact foldl_inv rest (applyStep b st)
      (fun s hs => hsteps s (by simp [hs]))
      (applyStep_inv b st (hsteps st (by simp)) hb)

theorem runSteps_inv (steps : List BuildStep)
    (hsteps : ∀ st ∈ steps, stepPlain st = true) : BuilderInv (runSteps steps) := by
  refine foldl_inv steps New hsteps ?_
  intro _
  refine ⟨by simp [New], ?_, by simp [New]⟩
  intro seg hseg
  simp [New] at hseg

/-! ## Sanitizer facts -/

theorem sanitizeChar_resourceChar (c : Char) : isResourceChar (sanitizeChar c) = true := by
  rw [sanitizeChar]
  split
  · assumption
  · decide

theorem head?_take {l : Str} {n : Nat} {c : Char} (h : (l.take n).head? = some c) :
    l.head? = some c := by
  cases l with
  | nil => simp at h
  | cons a t =>
    cases n with
    | zero => simp at h
    | succ m => simpa using h

theorem mem_sanitizeTrimmed {s : Str} {c : Char} (h : c ∈ sanitizeTrimmed s) :
    isResourceChar c = true := by
  have h2 := mem_trimLeft (mem_trimRight h)
  obtain ⟨x, -, hx⟩ := List.mem_map.mp h2
  rw [← hx]
  exact sanitizeChar_resourceChar x

theorem mem_safeResourceID {s : Str} {c : Char} (h : c ∈ SafeResourceID s) :
    isResourceChar c = true := by
  rw [SafeResourceID] at h
  split at h
  · simp at h
  · split at h
    · exact mem_sanitizeTrimmed (List.take_subset _ _ (mem_trimRight h))
    · exact mem_sanitizeTrimmed h

theorem sanitizeTrimmed_head? {s : Str} {c : Char} (h : (sanitizeTrimmed s).head? = some c) :
    isTrimChar c = false := by
  exact trimLeft_head? (trimRight_head? h)

theorem safeResourceID_head? {s : Str} {c : Char} (h : (SafeResourceID s).head? = some c) :
    isTrimChar c = false := by
  rw [SafeResourceID] at h
  split at h
  · simp at h
  · split at h
    · exact sanitizeTrimmed_head? (head?_take (trimRight_head? h))
    · exact sanitizeTrimmed_head? h

theorem safeResourceID_getLast? {s : Str} {c : Char}
    (h : (SafeResourceID s).getLast? = some c) : isTrimChar c = false := by
  rw [SafeResourceID] at h
  split at h
  · simp at h
  · split at h
    · exact trimRight_getLast? h
    · exact trimRight_getLast? h

theorem safeResourceID_length_le (s : Str) : (SafeResourceID s).length ≤ 200 := by
  rw [SafeResourceID]
  split
  · simp
  · split
    next hgt =>
      calc (trimRight isTrimChar ((sanitizeTrimmed s).take 200)).length
          ≤ ((sanitizeTrimmed s).take 200).length := length_trimRight_le _ _
        _ ≤ 200 := by simp
    next hle =>
      omega

example : Parse "//kopexa.com/frameworks/iso27001".data =
    .ok { service := [], segments := [⟨"frameworks".data, "iso27001".data⟩], version := [] } := by
  decide

example : Parse "//catalog.kopexa.com/frameworks/iso27001@v2".data =
    .ok { service := "catalog".data,
          segments := [⟨"frameworks".data, "iso27001".data⟩],
          version := "v2".data } := by
  decide

example : KRN.String ⟨"catalog".data, [⟨"frameworks".data, "iso27001".data⟩], "v2".data⟩ =
    "//catalog.kopexa.com/frameworks/iso27001@v2".data := by
  decide

example : Parse "//kopexa.com/c//x".data = .error .invalidKRN := by decide

example : Parse "//kopexa.com/a//b/c".data = .error .invalidResourceID := by decide

example : SafeResourceID "_".data = "_".data := by decide

example : IsValidResourceID "_".data = false := by decide

example : IsValidVersion ['_', 'a'] = false := by decide

example : SafeResourceID "Hello World!".data = "Hello-World".data := by decide

/-! ## Claim theorems -/

/-- Witness for claim C1 at a concrete accepted input with a service
subdomain and a version suffix. -/
theorem parse_roundTrip_witness :
    KRN.String ⟨"catalog".data, [⟨"frameworks".data, "iso27001".data⟩], "v2".data⟩ =
      "//catalog.kopexa.com/frameworks/iso27001@v2".data :=
  parse_roundTrip _ _ (by decide)

/-- Claim C2 counterexample: the builder accepts a collection containing a
path separator, Build succeeds, yet Parse rejects the serialized value, so
the unconditional builder round-trip claim is false. -/
theorem builder_roundTrip_cex :
    (runSteps [BuildStep.resource "a/b".data "x".data]).Build =
      .ok ⟨[], [⟨"a/b".data, "x".data⟩], []⟩ ∧
    Parse (KRN.String ⟨[], [⟨"a/b".data, "x".data⟩], []⟩) = .error .invalidKRN := by
  constructor
  · decide
  · decide

/-- Claim C2 (amended): any builder chain whose Build succeeds and whose
Resource calls use collections free of the separator characters '/' and '@'
round-trips through Parse to an Equals-equal value. -/
theorem builder_roundTrip_amended :
    ∀ (steps : List BuildStep) (k : KRN),
      (∀ st ∈ steps, stepPlain st = true) →
      (runSteps steps).Build = .ok k →
      ∃ k2, Parse k.String = .ok k2 ∧ k.Equals (some k2) = true := by
  intro steps k hplain hbuild
  have hinv := runSteps_inv steps hplain
  rw [Builder.Build] at hbuild
  split at hbuild
  · exact absurd hbuild (by simp)
  next herr =>
    split at hbuild
    · exact absurd hbuild (by simp)
    next hsegne =>
      simp only [Except.ok.injEq] at hbuild
      subst hbuild
      obtain ⟨h1, h2, h3⟩ := hinv herr
      have hwf : KRN.WF ⟨(runSteps steps).service, (runSteps steps).segments,
          (runSteps steps).version⟩ = true := by
        simp only [KRN.WF, Bool.and_eq_true]
        exact ⟨⟨h1, List.all_eq_true.mpr (fun seg hseg => (h2 seg hseg).1)⟩, h3⟩
      have hne : (runSteps steps).segments ≠ [] := by
        simpa [List.isEmpty_iff] using hsegne
      have hpl : ∀ seg ∈ (runSteps steps).segments, collectionPlain seg = true :=
        fun seg hseg => (h2 seg hseg).2
      exact ⟨_, parse_render _ hwf hne hpl, by simp [KRN.Equals]⟩

/-- Witness for the amended claim C2 at a concrete builder chain. -/
theorem builder_roundTrip_amended_witness :
    ∃ k2, Parse (KRN.String ⟨"catalog".data, [⟨"tenants".data, "acme".data⟩], "v1".data⟩) =
      .ok k2 ∧
      KRN.Equals ⟨"catalog".data, [⟨"tenants".data, "acme".data⟩], "v1".data⟩ (some k2) = true :=
  builder_roundTrip_amended
    [BuildStep.service "catalog".data, BuildStep.resource "tenants".data "acme".data,
      BuildStep.version "v1".data]
    ⟨"catalog".data, [⟨"tenants".data, "acme".data⟩], "v1".data⟩
    (by decide) (by decide)

theorem parsePairs_empty_token : ∀ toks : List Str, [] ∈ toks →
    parsePairs toks = .error .invalidKRN ∨ parsePairs toks = .error .invalidResourceID
  | [], h => by simp at h
  | [t], h => Or.inl rfl
  | c :: r :: rest, h => by
    rw [parsePairs]
    by_cases hc : c.isEmpty
    · left
      rw [if_pos hc]
    · rw [if_neg hc]
      by_cases hr : !IsValidResourceID r
      · right
        rw [if_pos hr]
      · rw [if_neg hr]
        have hcne : c ≠ [] := by simpa [List.isEmpty_iff] using hc
        have hrval : IsValidResourceID r = true := by simpa using hr
        have hrne : r ≠ [] := validResourceID_ne_nil hrval
        have hrest : [] ∈ rest := by
          rcases List.mem_cons.mp h with h1 | h1
          · exact absurd h1.symm hcne
          · rcases List.mem_cons.mp h1 with h2 | h2
            · exact absurd h2.symm hrne
            · exact h2
        rcases parsePairs_empty_token rest hrest with he | he
        · left
          rw [he]
        · right
          rw [he]

/-- Claim C3 counterexample: the input has an empty token in a resource-id
position of an even-length path, and Parse fails with the invalid-resource-id
error, not the malformed-identifier error the claim asserts. -/
theorem empty_token_error_cex :
    Parse "//kopexa.com/a//b/c".data = .error .invalidResourceID ∧
      KRNError.invalidResourceID ≠ KRNError.invalidKRN := by
  constructor
  · decide
  · decide

/-- Claim C3 (amended): an empty token in the resource path always makes the
path stage of Parse fail, but the error is the malformed-identifier kind only
when the empty token makes the path odd-length or sits in a collection
position; in a resource-id position of an even-length path it surfaces as the
invalid-resource-id kind instead.  The claim-cited input with an odd-length
path does report the malformed-identifier kind. -/
theorem empty_token_error_amended :
    (∀ toks : List Str, [] ∈ toks →
      parseResourcePath toks = .error .invalidKRN ∨
      parseResourcePath toks = .error .invalidResourceID) ∧
    Parse "//kopexa.com/c//x".data = .error .invalidKRN := by
  constructor
  · intro toks h
    rw [parseResourcePath]
    by_cases hodd : toks.length % 2 ≠ 0
    · left
      rw [if_pos hodd]
    · rw [if_neg hodd]
      exact parsePairs_empty_token toks h
  · decide

/-- Witness for the amended claim C3 at a concrete token list with an empty
token in a resource-id position. -/
theorem empty_token_error_witness :
    parseResourcePath [['a'], [], ['b'], ['c']] = .error .invalidKRN ∨
      parseResourcePath [['a'], [], ['b'], ['c']] = .error .invalidResourceID :=
  empty_token_error_amended.1 [['a'], [], ['b'], ['c']] (by decide)

/-- Claim C4 counterexample: on the one-character underscore input the
sanitizer returns the input unchanged, which is neither the empty string nor
accepted by the resource-id validator. -/
theorem safeResourceID_valid_cex :
    SafeResourceID "_".data = "_".data ∧ IsValidResourceID "_".data = false ∧
      "_".data ≠ ([] : Str) := by
  refine ⟨by decide, by decide, by decide⟩

/-- Claim C4 (amended): the sanitizer output always consists of resource
alphabet characters, has length at most 200, and never starts or ends with a
dash or dot; but a leading or trailing underscore survives, so the output is
not always empty-or-valid. -/
theorem safeResourceID_shape :
    ∀ s : Str,
      (SafeResourceID s).all isResourceChar = true ∧
      (SafeResourceID s).length ≤ 200 ∧
      (∀ a, (SafeResourceID s).head? = some a → isTrimChar a = false) ∧
      (∀ b, (SafeResourceID s).getLast? = some b → isTrimChar b = false) := by
  intro s
  refine ⟨?_, safeResourceID_length_le s, ?_, ?_⟩
  · exact List.all_eq_true.mpr fun c hc => mem_safeResourceID hc
  · intro a ha
    exact safeResourceID_head? ha
  · intro b hb
    exact safeResourceID_getLast? hb

/-- Witness for the amended claim C4 at a concrete input whose head and last
hypotheses are dischargeable. -/
theorem safeResourceID_shape_witness :
    (SafeResourceID "!a!".data).all isResourceChar = true ∧
      isTrimChar 'a' = false :=
  ⟨(safeResourceID_shape "!a!".data).1,
    (safeResourceID_shape "!a!".data).2.2.1 'a' (by decide)⟩

/-- Claim C8: the sanitizer is idempotent. -/
theorem safeResourceID_idem : ∀ s : Str, SafeResourceID (SafeResourceID s) = SafeResourceID s := by
  intro s
  cases hres : SafeResourceID s with
  | nil => simp [SafeResourceID]
  | cons c t =>
    have hall : ∀ x ∈ c :: t, isResourceChar x = true := by
      intro x hx
      rw [← hres] at hx
      exact mem_safeResourceID hx
    have hmap : (c :: t).map sanitizeChar = c :: t := by
      rw [List.map_congr_left fun a ha => by rw [sanitizeChar, if_pos (hall a ha)]]
      simp
    have hhead : isTrimChar c = false := by
      refine safeResourceID_head? (s := s) ?_
      rw [hres]
      simp
    have htl : trimLeft isTrimChar (c :: t) = c :: t := trimLeft_of_head t hhead
    have hlast9 : (c :: t).getLast? = some ((c :: t).getLast (by simp)) :=
      List.getLast?_eq_getLast _ (by simp)
    have hlastTrim : isTrimChar ((c :: t).getLast (by simp)) = false := by
      refine safeResourceID_getLast? (s := s) ?_
      rw [hres]
      exact hlast9
    have htr : trimRight isTrimChar (c :: t) = c :: t :=
      trimRight_of_getLast hlast9 hlastTrim
    have hst : sanitizeTrimmed (c :: t) = c :: t := by
      rw [sanitizeTrimmed, hmap, htl, htr]
    have hlen : (c :: t).length ≤ 200 := by
      rw [← hres]
      exact safeResourceID_length_le s
    rw [SafeResourceID, if_neg (by simp), hst, if_neg (by omega)]

theorem mem_of_head?_eq {l : Str} {a : Char} (h : l.head? = some a) : a ∈ l := by
  cases l with
  | nil => simp at h
  | cons x t =>
    simp only [List.head?_cons, Option.some.injEq] at h
    subst h
    simp

theorem mem_of_getLast?_eq {l : Str} {a : Char} (h : l.getLast? = some a) : a ∈ l := by
  have hne : l ≠ [] := by
    intro hl
    rw [hl] at h
    simp at h
  rw [List.getLast?_eq_getLast l hne] at h
  simp only [Option.some.injEq] at h
  rw [← h]
  exact List.getLast_mem hne

/-- Claim C5: the resource-id validator accepts any 200-character string over
the allowed alphabet with alphanumeric first and last characters, rejects
every string of 201 or more characters, and rejects every string whose first
or last character is a dash or a dot. -/
theorem resourceID_boundary :
    (∀ s : Str, s.length = 200 → s.all isResourceChar = true →
      (∀ a, s.head? = some a → isAlnum a = true) →
      (∀ b, s.getLast? = some b → isAlnum b = true) →
      IsValidResourceID s = true) ∧
    (∀ s : Str, 201 ≤ s.length → IsValidResourceID s = false) ∧
    (∀ s : Str, ∀ a, s.head? = some a → (a = '-' ∨ a = '.') →
      IsValidResourceID s = false) ∧
    (∀ s : Str, ∀ b, s.getLast? = some b → (b = '-' ∨ b = '.') →
      IsValidResourceID s = false) := by
  refine ⟨?_, ?_, ?_, ?_⟩
  · intro s hlen hall hhead hlast
    cases s with
    | nil => simp at hlen
    | cons c rest =>
      cases rest with
      | nil => simp at hlen
      | cons d rest2 =>
        rw [IsValidResourceID, if_neg (by simp [hlen])]
        have hget : (d :: rest2).getLast? = some ((d :: rest2).getLast (by simp)) :=
          List.getLast?_eq_getLast _ (by simp)
        simp only [resourceIDPattern, hget, Bool.and_eq_true, decide_eq_true_eq]
        refine ⟨⟨⟨hhead c rfl, ?_⟩, ?_⟩, ?_⟩
        · refine List.all_eq_true.mpr fun x hx => ?_
          refine List.all_eq_true.mp hall x ?_
          exact List.mem_cons_of_mem c ((List.dropLast_sublist (d :: rest2)).subset hx)
        · have h1 : (c :: d :: rest2).length = 200 := hlen
          simp only [List.length_cons] at h1
          simp only [List.length_dropLast, List.length_cons]
          omega
        · refine hlast _ ?_
          rw [List.getLast?_cons_cons]
          exact hget
  · intro s hlen
    rw [IsValidResourceID, if_pos]
    simp only [Bool.or_eq_true, decide_eq_true_eq]
    right
    omega
  · intro s a hhead hbad
    rw [IsValidResourceID]
    split
    · rfl
    · cases s with
      | nil => simp at hhead
      | cons c rest =>
        have hceq : c = a := by simpa using hhead
        subst hceq
        have hna : isAlnum c = false := by
          rcases hbad with rfl | rfl
          · decide
          · decide
        cases rest with
        | nil => simpa [resourceIDPattern] using hna
        | cons d rest2 => simp [resourceIDPattern, hna]
  · intro s b hlastH hbad
    rw [IsValidResourceID]
    split
    · rfl
    · have hnb : isAlnum b = false := by
        rcases hbad with rfl | rfl
        · decide
        · decide
      cases s with
      | nil => simp at hlastH
      | cons c rest =>
        cases rest with
        | nil =>
          have hceq : c = b := by simpa using hlastH
          subst hceq
          simpa [resourceIDPattern] using hnb
        | cons d rest2 =>
          rw [List.getLast?_cons_cons] at hlastH
          simp [resourceIDPattern, hlastH, hnb]

/-- Witness for claim C5 at concrete boundary inputs. -/
theorem resourceID_boundary_witness :
    IsValidResourceID (List.replicate 200 'a') = true ∧
      IsValidResourceID (List.replicate 201 'a') = false ∧
      IsValidResourceID ['-', 'a'] = false ∧
      IsValidResourceID ['a', '.'] = false :=
  ⟨resourceID_boundary.1 (List.replicate 200 'a') (by simp)
      (List.all_eq_true.mpr fun x hx => by
        rw [(List.mem_replicate.mp hx).2]
        decide)
      (fun a ha => by
        rw [(List.mem_replicate.mp (mem_of_head?_eq ha)).2]
        decide)
      (fun b hb => by
        rw [(List.mem_replicate.mp (mem_of_getLast?_eq hb)).2]
        decide),
    resourceID_boundary.2.1 (List.replicate 201 'a') (by simp),
    resourceID_boundary.2.2.1 ['-', 'a'] '-' (by decide) (Or.inl rfl),
    resourceID_boundary.2.2.2 ['a', '.'] '.' (by decide) (Or.inr rfl)⟩

/-- Claim C6: neither the parent nor a child of a versioned value carries the
version. -/
theorem version_not_inherited :
    ∀ v : KRN, v.HasVersion = true →
      (∀ p, v.Parent = some p → p.HasVersion = false) ∧
      (∀ c r k, NewChild (some v) c r = .ok k → k.HasVersion = false) := by
  intro v _
  constructor
  · intro p hp
    rw [KRN.Parent] at hp
    split at hp
    · simp at hp
    · simp only [Option.some.injEq] at hp
      subst hp
      rfl
  · intro c r k hk
    simp only [NewChild] at hk
    split at hk
    · simp at hk
    · split at hk
      · simp at hk
      · simp only [Except.ok.injEq] at hk
        subst hk
        rfl

/-- Witness for claim C6 at a concrete versioned value of depth two. -/
theorem version_not_inherited_witness :
    KRN.HasVersion ⟨[], [⟨['c'], ['x']⟩], []⟩ = false ∧
      KRN.HasVersion ⟨[], [⟨['c'], ['x']⟩, ⟨['d'], ['y']⟩, ⟨['e'], ['z']⟩], []⟩ = false :=
  ⟨(version_not_inherited ⟨[], [⟨['c'], ['x']⟩, ⟨['d'], ['y']⟩], ['v', '1']⟩ (by decide)).1
      ⟨[], [⟨['c'], ['x']⟩], []⟩ (by decide),
    (version_not_inherited ⟨[], [⟨['c'], ['x']⟩, ⟨['d'], ['y']⟩], ['v', '1']⟩ (by decide)).2
      ['e'] ['z'] ⟨[], [⟨['c'], ['x']⟩, ⟨['d'], ['y']⟩, ⟨['e'], ['z']⟩], []⟩ (by decide)⟩

/-- Claim C7: for a well-formed value of depth at least two, re-appending the
dropped leaf to the parent succeeds and reconstructs the same path. -/
theorem parent_child_path :
    ∀ v : KRN, v.WF = true → 2 ≤ v.Depth →
      ∃ k, NewChild v.Parent v.BasenameCollection v.Basename = .ok k ∧
        k.Path = v.Path := by
  intro v hwf hd
  have hlen : 2 ≤ v.segments.length := hd
  have hne : v.segments ≠ [] := by
    intro h
    rw [h] at hlen
    simp at hlen
  have hparent : v.Parent = some ⟨v.service, v.segments.dropLast, []⟩ := by
    rw [KRN.Parent, if_neg (by omega)]
  have hlast : v.segments.getLast? = some (v.segments.getLast hne) :=
    List.getLast?_eq_getLast _ hne
  have hbn : v.Basename = (v.segments.getLast hne).resourceID := by
    rw [KRN.Basename, hlast]
  have hbc : v.BasenameCollection = (v.segments.getLast hne).collection := by
    rw [KRN.BasenameCollection, hlast]
  simp only [KRN.WF, Bool.and_eq_true] at hwf
  obtain ⟨⟨-, hsegs⟩, -⟩ := hwf
  have hwfl : SegmentWF (v.segments.getLast hne) = true :=
    List.all_eq_true.mp hsegs _ (List.getLast_mem hne)
  simp only [SegmentWF, Bool.and_eq_true, Bool.not_eq_true'] at hwfl
  obtain ⟨hcoll, hrid⟩ := hwfl
  refine ⟨⟨v.service, v.segments.dropLast ++ [v.segments.getLast hne], []⟩, ?_, ?_⟩
  · rw [hparent, hbn, hbc]
    simp only [NewChild]
    rw [if_neg (by simp [hcoll]), if_neg (by simp [hrid])]
  · rw [KRN.Path, KRN.Path]
    rw [show v.segments.dropLast ++ [v.segments.getLast hne] = v.segments from
      List.dropLast_append_getLast hne]

/-- Witness for claim C7 at a concrete depth-two value. -/
theorem parent_child_path_witness :
    ∃ k, NewChild (KRN.Parent ⟨[], [⟨['c'], ['x']⟩, ⟨['d'], ['y']⟩], []⟩)
        (KRN.BasenameCollection ⟨[], [⟨['c'], ['x']⟩, ⟨['d'], ['y']⟩], []⟩)
        (KRN.Basename ⟨[], [⟨['c'], ['x']⟩, ⟨['d'], ['y']⟩], []⟩) = .ok k ∧
      KRN.Path k = KRN.Path ⟨[], [⟨['c'], ['x']⟩, ⟨['d'], ['y']⟩], []⟩ :=
  parent_child_path ⟨[], [⟨['c'], ['x']⟩, ⟨['d'], ['y']⟩], []⟩ (by decide) (by decide)

/-- Claim C9 counterexample: a string over the allowed alphabet that is not
empty, is not the bare v literal, and neither starts nor ends with a dash or
a dot, is still rejected, because its leading underscore is not alphanumeric;
so the claimed list of the only rejections is incomplete. -/
theorem version_grammar_cex :
    IsValidVersion ['_', 'a'] = false ∧
      ['_', 'a'] ≠ ([] : Str) ∧ ['_', 'a'] ≠ ['v'] ∧
      (['_', 'a'] : Str).all isResourceChar = true ∧
      ('_' ≠ '-' ∧ '_' ≠ '.') ∧ ('a' ≠ '-' ∧ 'a' ≠ '.') := by
  decide

/-- Claim C9 (amended): the version grammar has no maximum length, and a
string is accepted exactly when it is non-empty, is not the bare v literal,
uses only alphanumerics, dashes, underscores and dots, and starts and ends
with an alphanumeric character (so boundary underscores are also rejected,
in addition to boundary dashes and dots). -/
theorem version_grammar_amended :
    (∀ n : Nat, 1 ≤ n → IsValidVersion (List.replicate n 'a') = true) ∧
    (∀ s : Str, IsValidVersion s = true ↔
      (s ≠ [] ∧ s ≠ ['v'] ∧ s.all isResourceChar = true ∧
       (∀ a, s.head? = some a → isAlnum a = true) ∧
       (∀ b, s.getLast? = some b → isAlnum b = true))) := by
  have hchar : ∀ s : Str, IsValidVersion s = true ↔
      (s ≠ [] ∧ s ≠ ['v'] ∧ s.all isResourceChar = true ∧
       (∀ a, s.head? = some a → isAlnum a = true) ∧
       (∀ b, s.getLast? = some b → isAlnum b = true)) := by
    intro s
    constructor
    · intro h
      refine ⟨validVersion_ne_nil h, ?_, List.all_eq_true.mpr (chars_of_version h), ?_, ?_⟩
      · intro hv
        rw [hv] at h
        simp [IsValidVersion] at h
      · intro a ha
        rw [IsValidVersion] at h
        split at h
        · exact absurd h (by simp)
        · cases s with
          | nil => simp at ha
          | cons c rest =>
            have hceq : c = a := by simpa using ha
            subst hceq
            cases rest with
            | nil => simpa [versionPattern] using h
            | cons d rest2 =>
              simp only [versionPattern, Bool.and_eq_true] at h
              exact h.1.1
      · intro b hb
        rw [IsValidVersion] at h
        split at h
        · exact absurd h (by simp)
        · cases s with
          | nil => simp at hb
          | cons c rest =>
            cases rest with
            | nil =>
              have hceq : c = b := by simpa using hb
              subst hceq
              simpa [versionPattern] using h
            | cons d rest2 =>
              rw [List.getLast?_cons_cons] at hb
              simp only [versionPattern, Bool.and_eq_true, hb] at h
              simpa using h.2
    · rintro ⟨h1, h2, h3, h4, h5⟩
      rw [IsValidVersion, if_neg (by simp [h1, h2])]
      cases s with
      | nil => exact absurd rfl h1
      | cons c rest =>
        cases rest with
        | nil =>
          simpa [versionPattern] using h4 c rfl
        | cons d rest2 =>
          have hget : (d :: rest2).getLast? = some ((d :: rest2).getLast (by simp)) :=
            List.getLast?_eq_getLast _ (by simp)
          simp only [versionPattern, hget, Bool.and_eq_true]
          refine ⟨⟨h4 c rfl, ?_⟩, ?_⟩
          · refine List.all_eq_true.mpr fun x hx => ?_
            refine List.all_eq_true.mp h3 x ?_
            exact List.mem_cons_of_mem c ((List.dropLast_sublist (d :: rest2)).subset hx)
          · refine h5 _ ?_
            rw [List.getLast?_cons_cons]
            exact hget
  refine ⟨?_, hchar⟩
  intro n hn
  rw [hchar]
  refine ⟨?_, ?_, ?_, ?_, ?_⟩
  · intro h
    have := congrArg List.length h
    simp at this
    omega
  · intro h
    have hv : 'v' ∈ List.replicate n 'a' := by
      rw [h]
      simp
    exact absurd (List.mem_replicate.mp hv).2 (by decide)
  · exact List.all_eq_true.mpr fun x hx => by
      rw [(List.mem_replicate.mp hx).2]
      decide
  · intro a ha
    rw [(List.mem_replicate.mp (mem_of_head?_eq ha)).2]
    decide
  · intro b hb
    rw [(List.mem_replicate.mp (mem_of_getLast?_eq hb)).2]
    decide

/-- Witness for the amended claim C9: a 250-character version is accepted,
well past the 200-character resource-id cap. -/
theorem version_grammar_witness :
    IsValidVersion (List.replicate 250 'a') = true :=
  version_grammar_amended.1 250 (by decide)

/-- Claim C10: EqualsString is total; it returns false whenever Parse rejects
the argument, and agrees with Equals on the parsed value whenever Parse
accepts it. -/
theorem equalsString_total :
    ∀ (k : KRN) (s : Str),
      (∀ e, Parse s = .error e → k.EqualsString s = false) ∧
      (∀ o, Parse s = .ok o → k.EqualsString s = k.Equals (some o)) := by
  intro k s
  constructor
  · intro e he
    rw [KRN.EqualsString, he]
  · intro o ho
    rw [KRN.EqualsString, ho]

/-- Witness for claim C10 at a concrete value and a rejected and an accepted
string. -/
theorem equalsString_total_witness :
    KRN.EqualsString ⟨[], [⟨['c'], ['x']⟩], []⟩ ['y'] = false ∧
      KRN.EqualsString ⟨[], [⟨['c'], ['x']⟩], []⟩ "//kopexa.com/c/x".data =
        KRN.Equals ⟨[], [⟨['c'], ['x']⟩], []⟩ (some ⟨[], [⟨['c'], ['x']⟩], []⟩) :=
  ⟨(equalsString_total ⟨[], [⟨['c'], ['x']⟩], []⟩ ['y']).1 .invalidKRN (by decide),
    (equalsString_total ⟨[], [⟨['c'], ['x']⟩], []⟩ "//kopexa.com/c/x".data).2
      ⟨[], [⟨['c'], ['x']⟩], []⟩ (by decide)⟩

end Krn
